import Mathlib

/-!
Verification development for the JSON path extractor of the
`JsonParserNode` plugin (`src/nodes/JsonParserNode.py`).

The Python value universe produced by `json.loads` is embedded as
`JsonValue`; Python's `None` is identified with `JsonValue.null`
(they are the same runtime value in the source).  JSON numbers are
modelled as integers; floating-point literals are outside the model.
All text functions work on ASCII-representable behaviour of the
corresponding Python primitives.
-/

/-- The recursive union of values produced by parsing JSON, exactly the
values `json.loads` can return (numbers restricted to integers).
`null` doubles as Python's `None`. -/
inductive JsonValue where
  | null : JsonValue
  | bool (b : Bool) : JsonValue
  | num (n : Int) : JsonValue
  | str (s : String) : JsonValue
  | arr (elems : List JsonValue) : JsonValue
  | obj (fields : List (String × JsonValue)) : JsonValue

/-- One element of the `path_parts` list built by `_parse_json_path`:
Python appends either an `int` (a bracketed token that `int(...)`
accepted) or a `str` (anything else). -/
inductive PathPart where
  | idx (i : Int) : PathPart
  | key (s : String) : PathPart
deriving DecidableEq

/-- Structured view of the value-walking loop of `_parse_json_path`:
either the walk consumed every part (`ok`) or it returned early
(`fail`), in both cases together with the `traversed_path` list the
loop accumulated. -/
inductive WalkResult where
  | ok (v : JsonValue) (trace : List String) : WalkResult
  | fail (msg : String) (trace : List String) : WalkResult

/-- ASCII whitespace stripped by Python's `str.strip()` and `int(str)`
(space, tab, newline, vertical tab, form feed, carriage return). -/
def isPyWs (c : Char) : Bool :=
  c.toNat = 32 || c.toNat = 9 || c.toNat = 10 || c.toNat = 11 || c.toNat = 12 || c.toNat = 13

/-- ASCII decimal digit test, as used by Python's `int(str)` (restricted
to ASCII digits in this model). -/
def isDigitChar (c : Char) : Bool :=
  48 ≤ c.toNat && c.toNat ≤ 57

/-- The two quote characters removed by `current_part.strip('"\'')`. -/
def isQuoteChar (c : Char) : Bool :=
  c.toNat = 34 || c.toNat = 39

/-- Drop characters satisfying `p` from both ends of a list, the shape of
Python's `str.strip(chars)`. -/
def dropEnds (p : Char → Bool) (l : List Char) : List Char :=
  (((l.dropWhile p).reverse.dropWhile p)).reverse

/-- Python `str.strip()` (whitespace strip, ASCII model). -/
def pyStrip (s : String) : String :=
  String.mk (dropEnds isPyWs s.toList)

/-- Python `str.strip('"\'')`: removes ALL leading and trailing single or
double quote characters, in any mixture. -/
def stripQuotes (s : String) : String :=
  String.mk (dropEnds isQuoteChar s.toList)

/-- Digit run of Python `int(str)` after the optional sign: one or more
ASCII digits, single underscores allowed between digits, and the whole
remaining input must be consumed. -/
def pyDigitsAux : List Char → Nat → Option Nat
  | [], acc => some acc
  | '_' :: c :: rest, acc =>
    if isDigitChar c then pyDigitsAux rest (acc * 10 + (c.toNat - 48)) else none
  | c :: rest, acc =>
    if isDigitChar c then pyDigitsAux rest (acc * 10 + (c.toNat - 48)) else none

/-- Nonempty digit run for Python `int(str)`; the first character must be
a digit (no leading underscore). -/
def pyDigits : List Char → Option Nat
  | [] => none
  | c :: rest => if isDigitChar c then pyDigitsAux rest (c.toNat - 48) else none

/-- Model of Python's `int(s)` on strings: strip whitespace, optional
single sign, nonempty ASCII digit run (with `_` group separators);
`none` models `ValueError`. -/
def pyIntOfString (s : String) : Option Int :=
  match dropEnds isPyWs s.toList with
  | '-' :: rest => (pyDigits rest).map (fun n => -(n : Int))
  | '+' :: rest => (pyDigits rest).map (fun n => (n : Int))
  | l => (pyDigits l).map (fun n => (n : Int))

/-- Decimal digit character with value `d` (for `d < 10`). -/
def decDigit (d : Nat) : Char := Char.ofNat (48 + d)

/-- Fueled accumulator loop producing the decimal digits of `n`, least
significant digit peeled off first onto `acc`; any fuel above `n`
suffices. -/
def natToCharsAux : Nat → Nat → List Char → List Char
  | 0, _, acc => acc
  | fuel + 1, n, acc =>
    if n < 10 then decDigit n :: acc
    else natToCharsAux fuel (n / 10) (decDigit (n % 10) :: acc)

/-- Decimal representation of a natural number, most significant digit
first — the digits of Python's `str(int)`. -/
def natToChars (n : Nat) : List Char :=
  natToCharsAux (n + 1) n []

/-- Python `str(n)` for a natural number. -/
def natRepr (n : Nat) : String := String.mk (natToChars n)

/-- Characters of Python `str(i)` for an integer. -/
def intReprChars : Int → List Char
  | .ofNat n => natToChars n
  | .negSucc n => '-' :: natToChars (n + 1)

/-- Python `str(i)` for an integer. -/
def intRepr (i : Int) : String := String.mk (intReprChars i)

/-- Python `str(part)` on an element of `path_parts` (used for the
`traversed_path` labels). -/
def partStr : PathPart → String
  | .idx i => intRepr i
  | .key s => s

/-- Python `type(x).__name__` on the values of this universe. -/
def typeName : JsonValue → String
  | .null => "NoneType"
  | .bool _ => "bool"
  | .num _ => "int"
  | .str _ => "str"
  | .arr _ => "list"
  | .obj _ => "dict"

/-- Python dict lookup `fields[s]` / membership: first binding of the
key.  `json.loads`-produced dicts never hold duplicate keys, so first
and last coincide there. -/
def lookupField : List (String × JsonValue) → String → Option JsonValue
  | [], _ => none
  | (k, v) :: rest, s => if k = s then some v else lookupField rest s

/-- Interpretation of an accumulated bracketed token on `]`
(`JsonParserNode.py` lines 84-94): an `int(...)` success becomes an
integer part, anything else a string part with all surrounding quotes
stripped. -/
def bracketToken (t : String) : PathPart :=
  match pyIntOfString t with
  | some i => .idx i
  | none => .key (stripQuotes t)

/-- The character loop of `_parse_json_path` that splits the path into
`path_parts` (lines 74-103): state is the remaining input, the pending
`current_part` characters, the `in_brackets` flag, and the parts
collected so far. -/
def splitPathAux : List Char → List Char → Bool → List PathPart → List PathPart
  | [], cur, _, parts =>
    if cur.isEmpty then parts else parts ++ [.key (String.mk cur)]
  | c :: rest, cur, inB, parts =>
    if c = '[' then
      splitPathAux rest [] true
        (if cur.isEmpty then parts else parts ++ [.key (String.mk cur)])
    else if c = ']' then
      if inB && !cur.isEmpty then
        splitPathAux rest [] false (parts ++ [bracketToken (String.mk cur)])
      else
        splitPathAux rest cur false parts
    else if c = '.' && !inB then
      splitPathAux rest [] inB
        (if cur.isEmpty then parts else parts ++ [.key (String.mk cur)])
    else
      splitPathAux rest (cur ++ [c]) inB parts

/-- `path_parts` computed from a raw path string. -/
def splitPath (path : String) : List PathPart :=
  splitPathAux path.toList [] false []

/-- Python's `part in current_data` / `current_data[part]` against a
dict: an integer part can never equal a string dict key in Python
(`0 in a_json_dict` is `False`), so an `idx` part always misses. -/
def partKeyLookup (fields : List (String × JsonValue)) : PathPart → Option JsonValue
  | .key s => lookupField fields s
  | .idx _ => none

/-- Python's `int(part) if isinstance(part, str) else part` against a
list: `none` models the caught `ValueError`. -/
def partIndex : PathPart → Option Int
  | .key s => pyIntOfString s
  | .idx i => some i

/-- The walking loop of `_parse_json_path` (lines 106-129), with the
`traversed_path` accumulator made explicit.  The three value cases are
the `dict` / `list` / fallback branches of the loop body; the
`arr` case checks `0 <= index < len(...)`. -/
def walkAux : JsonValue → List PathPart → List String → WalkResult
  | cur, [], tr => .ok cur tr
  | cur, p :: rest, tr =>
    let tr2 := tr ++ [partStr p]
    match cur with
    | .obj fields =>
      match partKeyLookup fields p with
      | some v => walkAux v rest tr2
      | none =>
        .fail ("键 '" ++ partStr p ++ "' 在路径 '" ++
               String.intercalate "." tr2 ++ "' 中不存在") tr2
    | .arr elems =>
      match partIndex p with
      | some i =>
        if h : 0 ≤ i ∧ i.toNat < elems.length then
          walkAux (elems.get ⟨i.toNat, h.2⟩) rest tr2
        else
          .fail ("索引 " ++ intRepr i ++ " 超出数组范围 (长度: " ++
                 natRepr elems.length ++ ")") tr2
      | none => .fail ("无效的数组索引: " ++ partStr p) tr2
    | _ =>
      .fail ("无法在类型 " ++ typeName cur ++ " 上使用路径 '" ++ partStr p ++ "'") tr2

/-- `_parse_json_path(data, path)` exactly as in the source: the empty
path short-circuits with `根路径`; otherwise the walk either returns the
reached value with a success message or `None` (= `null`) with the
failure message. -/
def _parse_json_path (data : JsonValue) (path : String) : JsonValue × String :=
  if (pyStrip path).isEmpty then (data, "根路径")
  else
    match walkAux data (splitPath path) [] with
    | .ok v _ => (v, "成功提取路径: " ++ path)
    | .fail msg _ => (.null, msg)

/-- Lowercase hexadecimal digit character with value `d` (for `d < 16`),
as produced by Python's `"\\u%04x"` formatting. -/
def hexLowerChar (d : Nat) : Char :=
  if d < 10 then Char.ofNat (48 + d) else Char.ofNat (87 + d)

/-- Escaping of one character inside a JSON string literal, modelling the
external collaborator `json.dumps(..., ensure_ascii=False)`: quote,
backslash and the named control characters get two-character escapes,
all other control characters below U+0020 get `\u00xx`, and everything
else passes through unescaped. -/
def escChar (c : Char) : List Char :=
  if c = '"' then ['\\', '"']
  else if c = '\\' then ['\\', '\\']
  else if c = '\n' then ['\\', 'n']
  else if c = '\r' then ['\\', 'r']
  else if c = '\t' then ['\\', 't']
  else if c = '\x08' then ['\\', 'b']
  else if c = '\x0c' then ['\\', 'f']
  else if c.toNat < 32 then
    '\\' :: 'u' :: '0' :: '0' :: [hexLowerChar (c.toNat / 16), hexLowerChar (c.toNat % 16)]
  else [c]

/-- Escaped body of a JSON string literal. -/
def escapeList (l : List Char) : List Char := l.flatMap escChar

mutual
/-- Characters of `json.dumps(v, ensure_ascii=False)` with the default
separators `', '` and `': '` (the call on lines 146 and 151 of the
source).  Model of the external `json` module on this value universe. -/
def dumpsList : JsonValue → List Char
  | .null => 'n' :: ['u', 'l', 'l']
  | .bool true => 't' :: ['r', 'u', 'e']
  | .bool false => 'f' :: ['a', 'l', 's', 'e']
  | .num i => intReprChars i
  | .str s => '"' :: (escapeList s.toList ++ ['"'])
  | .arr [] => ['[', ']']
  | .arr (v :: vs) => '[' :: (dumpsList v ++ dumpsArrTail vs ++ [']'])
  | .obj [] => ['\x7b', '\x7d']
  | .obj (kv :: kvs) => '\x7b' :: (dumpsField kv ++ dumpsObjTail kvs ++ ['\x7d'])

/-- Continuation of a serialized array after its first element. -/
def dumpsArrTail : List JsonValue → List Char
  | [] => []
  | v :: vs => ',' :: ' ' :: (dumpsList v ++ dumpsArrTail vs)

/-- One serialized `"key": value` member. -/
def dumpsField : String × JsonValue → List Char
  | (k, v) => '"' :: (escapeList k.toList ++ ('"' :: ':' :: ' ' :: dumpsList v))

/-- Continuation of a serialized object after its first member. -/
def dumpsObjTail : List (String × JsonValue) → List Char
  | [] => []
  | kv :: kvs => ',' :: ' ' :: (dumpsField kv ++ dumpsObjTail kvs)
end

/-- `json.dumps(v, ensure_ascii=False)` as a string. -/
def dumps (v : JsonValue) : String := String.mk (dumpsList v)

mutual
/-- Characters of `json.dumps(v, ensure_ascii=False, indent=2)` at a
given nesting level (the call on line 148); with `indent` the item
separator becomes `','` + newline + indentation and the key separator
stays `': '`. -/
def prettyList : Nat → JsonValue → List Char
  | _, .null => 'n' :: ['u', 'l', 'l']
  | _, .bool true => 't' :: ['r', 'u', 'e']
  | _, .bool false => 'f' :: ['a', 'l', 's', 'e']
  | _, .num i => intReprChars i
  | _, .str s => '"' :: (escapeList s.toList ++ ['"'])
  | _, .arr [] => ['[', ']']
  | lv, .arr (v :: vs) =>
    '[' :: '\n' :: (List.replicate (2 * (lv + 1)) ' ' ++
      (prettyList (lv + 1) v ++ prettyArrTail (lv + 1) vs ++
        ('\n' :: (List.replicate (2 * lv) ' ' ++ [']']))))
  | _, .obj [] => ['\x7b', '\x7d']
  | lv, .obj (kv :: kvs) =>
    '\x7b' :: '\n' :: (List.replicate (2 * (lv + 1)) ' ' ++
      (prettyField (lv + 1) kv ++ prettyObjTail (lv + 1) kvs ++
        ('\n' :: (List.replicate (2 * lv) ' ' ++ ['\x7d']))))

/-- Continuation of a pretty-printed array after its first element. -/
def prettyArrTail : Nat → List JsonValue → List Char
  | _, [] => []
  | lv, v :: vs =>
    ',' :: '\n' :: (List.replicate (2 * lv) ' ' ++ (prettyList lv v ++ prettyArrTail lv vs))

/-- One pretty-printed `"key": value` member. -/
def prettyField : Nat → String × JsonValue → List Char
  | lv, (k, v) => '"' :: (escapeList k.toList ++ ('"' :: ':' :: ' ' :: prettyList lv v))

/-- Continuation of a pretty-printed object after its first member. -/
def prettyObjTail : Nat → List (String × JsonValue) → List Char
  | _, [] => []
  | lv, kv :: kvs =>
    ',' :: '\n' :: (List.replicate (2 * lv) ' ' ++ (prettyField lv kv ++ prettyObjTail lv kvs))
end

/-- `json.dumps(v, ensure_ascii=False, indent=2)` as a string. -/
def prettyDumps (v : JsonValue) : String := String.mk (prettyList 0 v)

/-- Python `str(x)` on the scalar values reaching line 152 of
`_format_output` (dict/list were already handled; `None` was returned
as `""` earlier, so `null` only needs a nominal clause). -/
def pyStr : JsonValue → String
  | .null => "None"
  | .bool b => if b then "True" else "False"
  | .num i => intRepr i
  | .str s => s
  | .arr l => dumps (.arr l)
  | .obj l => dumps (.obj l)

/-- `_format_output(data, output_format)` (lines 131-152): `None`
formats to the empty string; `"json"` and `"pretty_json"` use the two
`json.dumps` variants; the default (`"string"`) branch uses compact
JSON for dict/list and `str(...)` otherwise. -/
def _format_output (data : JsonValue) (output_format : String) : String :=
  match data with
  | .null => ""
  | _ =>
    if output_format = "json" then dumps data
    else if output_format = "pretty_json" then prettyDumps data
    else
      match data with
      | .obj fields => dumps (.obj fields)
      | .arr elems => dumps (.arr elems)
      | v => pyStr v

/-- JSON insignificant whitespace (space, tab, newline, carriage
return). -/
def isJsonWs (c : Char) : Bool :=
  c.toNat = 32 || c.toNat = 9 || c.toNat = 10 || c.toNat = 13

/-- Skip insignificant whitespace. -/
def skipWs (l : List Char) : List Char := l.dropWhile isJsonWs

/-- Value of one hexadecimal digit. -/
def hexVal (c : Char) : Option Nat :=
  if isDigitChar c then some (c.toNat - 48)
  else if 97 ≤ c.toNat && c.toNat ≤ 102 then some (c.toNat - 87)
  else if 65 ≤ c.toNat && c.toNat ≤ 70 then some (c.toNat - 55)
  else none

/-- Body of a JSON string literal after the opening quote, in the strict
mode of `json.loads`: raw control characters are rejected, the standard
escapes and `\uXXXX` are decoded (astral surrogate pairs are outside
this model).  Returns the decoded characters and the input after the
closing quote. -/
def parseStrChars : List Char → Option (List Char × List Char)
  | [] => none
  | c :: rest =>
    if c = '"' then some ([], rest)
    else if c = '\\' then
      match rest with
      | [] => none
      | e :: r =>
        if e = '"' then (parseStrChars r).map (fun p => ('"' :: p.1, p.2))
        else if e = '\\' then (parseStrChars r).map (fun p => ('\\' :: p.1, p.2))
        else if e = '/' then (parseStrChars r).map (fun p => ('/' :: p.1, p.2))
        else if e = 'b' then (parseStrChars r).map (fun p => ('\x08' :: p.1, p.2))
        else if e = 'f' then (parseStrChars r).map (fun p => ('\x0c' :: p.1, p.2))
        else if e = 'n' then (parseStrChars r).map (fun p => ('\n' :: p.1, p.2))
        else if e = 'r' then (parseStrChars r).map (fun p => ('\r' :: p.1, p.2))
        else if e = 't' then (parseStrChars r).map (fun p => ('\t' :: p.1, p.2))
        else if e = 'u' then
          match r with
          | h1 :: h2 :: h3 :: h4 :: r2 =>
            match hexVal h1, hexVal h2, hexVal h3, hexVal h4 with
            | some a, some b, some d1, some d2 =>
              (parseStrChars r2).map
                (fun p => (Char.ofNat (a * 4096 + b * 256 + d1 * 16 + d2) :: p.1, p.2))
            | _, _, _, _ => none
          | _ => none
        else none
    else if c.toNat < 32 then none
    else (parseStrChars rest).map (fun p => (c :: p.1, p.2))

/-- Greedy ASCII digit run with accumulator (the integer part of a JSON
number). -/
def parseDigitsAcc : List Char → Nat → Nat × List Char
  | [], acc => (acc, [])
  | c :: rest, acc =>
    if isDigitChar c then parseDigitsAcc rest (acc * 10 + (c.toNat - 48))
    else (acc, c :: rest)

/-- Does the input start with a digit? -/
def digitFollows (l : List Char) : Bool :=
  match l with
  | [] => false
  | c :: _ => isDigitChar c

/-- Does the input continue with a fraction or exponent marker?  Such a
number is a float in JSON; floats are outside this model, so the parser
rejects it. -/
def fracFollows (l : List Char) : Bool :=
  match l with
  | [] => false
  | c :: _ => c = '.' || c = 'e' || c = 'E'

/-- Unsigned integer of the JSON grammar: `0`, or a nonzero digit
followed by digits; no leading zeros; fractions/exponents rejected
(model restriction to integers). -/
def parseNumNat : List Char → Option (Nat × List Char)
  | [] => none
  | c :: rest =>
    if c = '0' then
      if digitFollows rest || fracFollows rest then none else some (0, rest)
    else if isDigitChar c then
      let p := parseDigitsAcc rest (c.toNat - 48)
      if fracFollows p.2 then none else some p
    else none

/-- Signed integer of the JSON grammar. -/
def parseNum : List Char → Option (Int × List Char)
  | [] => none
  | c :: rest =>
    if c = '-' then (parseNumNat rest).map (fun p => (-(p.1 : Int), p.2))
    else (parseNumNat (c :: rest)).map (fun p => ((p.1 : Int), p.2))

/-- Python dict assignment `d[k] = v`: replaces the value in place when
the key is present, appends otherwise. -/
def insertField : List (String × JsonValue) → String → JsonValue → List (String × JsonValue)
  | [], k, v => [(k, v)]
  | (k2, v2) :: rest, k, v =>
    if k2 = k then (k2, v) :: rest else (k2, v2) :: insertField rest k v

/-- Build a Python dict from parsed members in order (later duplicate
keys overwrite earlier ones in place, as in `json.loads`). -/
def buildObj (fields : List (String × JsonValue)) : List (String × JsonValue) :=
  fields.foldl (fun acc kv => insertField acc kv.1 kv.2) []

mutual
/-- Fueled recursive-descent parser for one JSON value, modelling the
external collaborator `json.loads` (restricted to integer numbers).
Leading whitespace is skipped; the remaining input is returned. -/
def parseValue : Nat → List Char → Option (JsonValue × List Char)
  | 0, _ => none
  | f + 1, l =>
    match skipWs l with
    | [] => none
    | c :: rest =>
      if c = 'n' then
        match rest with
        | 'u' :: 'l' :: 'l' :: r => some (.null, r)
        | _ => none
      else if c = 't' then
        match rest with
        | 'r' :: 'u' :: 'e' :: r => some (.bool true, r)
        | _ => none
      else if c = 'f' then
        match rest with
        | 'a' :: 'l' :: 's' :: 'e' :: r => some (.bool false, r)
        | _ => none
      else if c = '"' then
        (parseStrChars rest).map (fun p => (.str (String.mk p.1), p.2))
      else if c = '[' then
        let l2 := skipWs rest
        if l2.head? = some ']' then some (.arr [], l2.tail)
        else
          match parseValue f l2 with
          | none => none
          | some (v, r) =>
            match parseArrTail f r with
            | none => none
            | some (vs, r2) => some (.arr (v :: vs), r2)
      else if c = '\x7b' then
        let l2 := skipWs rest
        if l2.head? = some '\x7d' then some (.obj [], l2.tail)
        else if l2.head? = some '"' then
          match parseStrChars l2.tail with
          | none => none
          | some (kcs, r) =>
            let r2 := skipWs r
            if r2.head? = some ':' then
              match parseValue f r2.tail with
              | none => none
              | some (v, r3) =>
                match parseObjTail f r3 with
                | none => none
                | some (kvs, r4) => some (.obj (buildObj ((String.mk kcs, v) :: kvs)), r4)
            else none
        else none
      else if c = '-' || isDigitChar c then
        (parseNum (c :: rest)).map (fun p => (.num p.1, p.2))
      else none

/-- After one array element: `]` closes, `,` demands another element. -/
def parseArrTail : Nat → List Char → Option (List JsonValue × List Char)
  | 0, _ => none
  | f + 1, l =>
    let l2 := skipWs l
    if l2.head? = some ']' then some ([], l2.tail)
    else if l2.head? = some ',' then
      match parseValue f l2.tail with
      | none => none
      | some (v, r) =>
        match parseArrTail f r with
        | none => none
        | some (vs, r2) => some (v :: vs, r2)
    else none

/-- After one object member: `}` closes, `,` demands another
`"key": value` member. -/
def parseObjTail : Nat → List Char → Option (List (String × JsonValue) × List Char)
  | 0, _ => none
  | f + 1, l =>
    let l2 := skipWs l
    if l2.head? = some '\x7d' then some ([], l2.tail)
    else if l2.head? = some ',' then
      let l3 := skipWs l2.tail
      if l3.head? = some '"' then
        match parseStrChars l3.tail with
        | none => none
        | some (kcs, r) =>
          let r2 := skipWs r
          if r2.head? = some ':' then
            match parseValue f r2.tail with
            | none => none
            | some (v, r3) =>
              match parseObjTail f r3 with
              | none => none
              | some (kvs, r4) => some ((String.mk kcs, v) :: kvs, r4)
          else none
      else none
    else none
end

/-- Parse a whole document: one value, then only whitespace may remain.
The fuel `length + 1` dominates every recursion depth reachable on the
input. -/
def parseTop (l : List Char) : Option JsonValue :=
  match parseValue (l.length + 1) l with
  | some (v, rest) => if (skipWs rest).isEmpty then some v else none
  | none => none

/-- Model of `json.loads(s)`: a parsed value or a `JSONDecodeError`
carrying a message (the concrete message text of CPython is modelled by
a fixed representative). -/
def json_loads (s : String) : Except String JsonValue :=
  match parseTop s.toList with
  | some v => Except.ok v
  | none => Except.error "Expecting value"

/-- `parse_input(...)` of `JsonParserNode` (lines 154-197): the
`"string"` input type returns the input unchanged; invalid JSON returns
the decode error; an empty (stripped) path formats the whole value; a
`None` extraction result (failure or resolved `null`) selects the
default value when one is configured; otherwise the extracted value is
formatted. -/
def parse_input (input_type input_string json_path output_format default_value : String) :
    String × String :=
  if input_type = "string" then (input_string, "直接返回字符串")
  else
    match json_loads (pyStrip input_string) with
    | .error e => ("JSON解析错误: " ++ e, "JSON格式无效")
    | .ok parsed_data =>
      if (pyStrip json_path).isEmpty then
        (_format_output parsed_data output_format, "返回完整JSON数据")
      else
        match _parse_json_path parsed_data json_path with
        | (JsonValue.null, path_info) =>
          if !default_value.isEmpty then (default_value, "使用默认值: " ++ path_info)
          else ("", path_info)
        | (result, path_info) => (_format_output result output_format, path_info)

/-- The success transition of one accessor application in the walking
loop: `some` of the next `current_data` exactly when the loop body does
not return early. -/
def step (cur : JsonValue) (p : PathPart) : Option JsonValue :=
  match cur with
  | .obj fields => partKeyLookup fields p
  | .arr elems =>
    match partIndex p with
    | some i =>
      if h : 0 ≤ i ∧ i.toNat < elems.length then some (elems.get ⟨i.toNat, h.2⟩)
      else none
    | none => none
  | _ => none

/-- The failure message the loop body produces when `step` misses. -/
def failMsg (cur : JsonValue) (p : PathPart) (tr2 : List String) : String :=
  match cur with
  | .obj _ =>
    "键 '" ++ partStr p ++ "' 在路径 '" ++ String.intercalate "." tr2 ++ "' 中不存在"
  | .arr elems =>
    match partIndex p with
    | some i =>
      "索引 " ++ intRepr i ++ " 超出数组范围 (长度: " ++ natRepr elems.length ++ ")"
    | none => "无效的数组索引: " ++ partStr p
  | _ => "无法在类型 " ++ typeName cur ++ " 上使用路径 '" ++ partStr p ++ "'"

/-- Iterated success transitions over a prefix of the part list. -/
def iterSteps : JsonValue → List PathPart → Option JsonValue
  | v, [] => some v
  | v, p :: ps =>
    match step v p with
    | some w => iterSteps w ps
    | none => none

/-- Is `k` among the keys of a member list? -/
def keyMem (k : String) : List (String × JsonValue) → Bool
  | [] => false
  | (k2, _) :: rest => k = k2 || keyMem k rest

mutual
/-- The Python dict invariant on this universe: every mapping, at every
depth, has pairwise distinct keys (guaranteed for values produced by
`json.loads`). -/
def wfVal : JsonValue → Bool
  | .null => true
  | .bool _ => true
  | .num _ => true
  | .str _ => true
  | .arr l => wfArr l
  | .obj l => wfObj l

/-- `wfVal` on every list element. -/
def wfArr : List JsonValue → Bool
  | [] => true
  | v :: vs => wfVal v && wfArr vs

/-- Distinct keys at this level and `wfVal` on every member value. -/
def wfObj : List (String × JsonValue) → Bool
  | [] => true
  | (k, v) :: rest => !keyMem k rest && wfVal v && wfObj rest
end

theorem natToCharsAux_acc (fuel : Nat) :
    ∀ n acc, natToCharsAux fuel n acc = natToCharsAux fuel n [] ++ acc := by
  induction fuel with
  | zero => intro n acc; simp [natToCharsAux]
  | succ f ih =>
    intro n acc
    by_cases h : n < 10
    · simp [natToCharsAux, h]
    · simp only [natToCharsAux, if_neg h]
      rw [ih (n / 10) (decDigit (n % 10) :: acc), ih (n / 10) [decDigit (n % 10)]]
      simp

theorem natToCharsAux_fuel (fuel : Nat) :
    ∀ g n acc, n < fuel → n < g → natToCharsAux fuel n acc = natToCharsAux g n acc := by
  induction fuel with
  | zero => intro g n acc h; omega
  | succ f ih =>
    intro g n acc h hg
    match g, hg with
    | g' + 1, _ =>
      by_cases h10 : n < 10
      · simp [natToCharsAux, h10]
      · simp only [natToCharsAux, if_neg h10]
        have hdiv : n / 10 < n := Nat.div_lt_self (by omega) (by norm_num)
        exact ih g' (n / 10) _ (by omega) (by omega)

theorem natToCharsAux_succ (f n : Nat) (acc : List Char) :
    natToCharsAux (f + 1) n acc =
      if n < 10 then decDigit n :: acc
      else natToCharsAux f (n / 10) (decDigit (n % 10) :: acc) := rfl

theorem natToChars_lt {n : Nat} (h : n < 10) : natToChars n = [decDigit n] := by
  simp [natToChars, natToCharsAux, h]

theorem natToChars_ge {n : Nat} (h : 10 ≤ n) :
    natToChars n = natToChars (n / 10) ++ [decDigit (n % 10)] := by
  have hdiv : n / 10 < n := Nat.div_lt_self (by omega) (by norm_num)
  unfold natToChars
  rw [natToCharsAux_succ, if_neg (by omega : ¬ n < 10)]
  rw [natToCharsAux_acc n (n / 10) (decDigit (n % 10) :: [])]
  rw [natToCharsAux_fuel n (n / 10 + 1) (n / 10) [] (by omega) (Nat.lt_succ_self _)]

theorem decDigit_toNat : ∀ d, d < 10 → (decDigit d).toNat = 48 + d := by decide

theorem natToChars_all_digit (n : Nat) :
    ∀ c ∈ natToChars n, 48 ≤ c.toNat ∧ c.toNat ≤ 57 := by
  by_cases h : n < 10
  · rw [natToChars_lt h]
    intro c hc
    simp only [List.mem_singleton] at hc
    subst hc
    rw [decDigit_toNat n h]
    omega
  · rw [natToChars_ge (by omega)]
    intro c hc
    rcases List.mem_append.mp hc with h1 | h2
    · exact natToChars_all_digit (n / 10) c h1
    · simp only [List.mem_singleton] at h2
      subst h2
      rw [decDigit_toNat (n % 10) (by omega)]
      omega
termination_by n
decreasing_by exact Nat.div_lt_self (by omega) (by norm_num)

theorem natToChars_ne_nil (n : Nat) : natToChars n ≠ [] := by
  by_cases h : n < 10
  · rw [natToChars_lt h]; simp
  · rw [natToChars_ge (by omega)]; simp

theorem natToChars_head_pos (n : Nat) (hn : 0 < n) :
    ∀ cs, natToChars n ≠ '0' :: cs := by
  by_cases h : n < 10
  · rw [natToChars_lt h]
    intro cs hc
    have h1 : decDigit n = '0' := by simpa using congrArg (fun l => l.headD 'x') hc
    have h2 : (decDigit n).toNat = 48 + n := decDigit_toNat n h
    rw [h1] at h2
    have h0 : ('0' : Char).toNat = 48 := by decide
    rw [h0] at h2
    omega
  · rw [natToChars_ge (by omega)]
    intro cs hc
    rcases hd : natToChars (n / 10) with _ | ⟨c, rest⟩
    · exact natToChars_ne_nil (n / 10) hd
    · rw [hd] at hc
      simp only [List.cons_append, List.cons.injEq] at hc
      exact natToChars_head_pos (n / 10) (by omega) rest (by rw [hd, hc.1])
termination_by n
decreasing_by exact Nat.div_lt_self (by omega) (by norm_num)

theorem dropWhile_cons_false {p : Char → Bool} {c : Char} {l : List Char}
    (hc : p c = false) : List.dropWhile p (c :: l) = c :: l := by
  simp [List.dropWhile, hc]

theorem dropWhile_append_all {p : Char → Bool} :
    ∀ pre l, (∀ c ∈ pre, p c = true) →
      List.dropWhile p (pre ++ l) = List.dropWhile p l := by
  intro pre
  induction pre with
  | nil => intro l _; rfl
  | cons c rest ih =>
    intro l h
    have hc : p c = true := h c (by simp)
    simp only [List.cons_append, List.dropWhile, hc]
    exact ih l (fun c' hc' => h c' (by simp [hc']))

theorem dropEnds_of_sandwich (p : Char → Bool) (pre core post : List Char)
    (h1 : ∀ c ∈ pre, p c = true) (h2 : ∀ c ∈ post, p c = true)
    (h3 : ∀ c, core.head? = some c → p c = false)
    (h4 : ∀ c, core.getLast? = some c → p c = false) :
    dropEnds p (pre ++ core ++ post) = core := by
  unfold dropEnds
  rw [List.append_assoc, dropWhile_append_all pre _ h1]
  cases core with
  | nil =>
    have hpost : List.dropWhile p post = [] := by
      have := dropWhile_append_all post [] h2
      simpa using this
    simp [hpost]
  | cons c0 core' =>
    have hsplit : List.dropWhile p ((c0 :: core') ++ post) = (c0 :: core') ++ post := by
      rw [List.cons_append]
      exact dropWhile_cons_false (h3 c0 rfl)
    rw [hsplit, List.reverse_append]
    rw [dropWhile_append_all post.reverse _ (fun c hc => h2 c (List.mem_reverse.mp hc))]
    rcases hrev : (c0 :: core').reverse with _ | ⟨x, xs⟩
    · exact absurd (congrArg List.length hrev) (by simp)
    · have hx : (c0 :: core').getLast? = some x := by
        rw [← List.head?_reverse, hrev]; rfl
      rw [dropWhile_cons_false (h4 x hx)]
      rw [← hrev, List.reverse_reverse]

theorem splitPathAux_keys :
    ∀ cs cur inB parts,
      (∀ c ∈ cs, c ≠ '[' ∧ c ≠ ']') →
      (∀ p ∈ parts, ∃ s, p = PathPart.key s) →
      ∀ p ∈ splitPathAux cs cur inB parts, ∃ s, p = PathPart.key s := by
  intro cs
  induction cs with
  | nil =>
    intro cur inB parts _ hp p hmem
    simp only [splitPathAux] at hmem
    split at hmem
    · exact hp p hmem
    · rcases List.mem_append.mp hmem with h | h
      · exact hp p h
      · exact ⟨String.mk cur, by simpa using h⟩
  | cons c rest ih =>
    intro cur inB parts h hp p hmem
    have hc := h c (by simp)
    have hext : ∀ parts2 x, (∀ q ∈ parts2, ∃ s, q = PathPart.key s) →
        ∀ q ∈ (if List.isEmpty cur then parts2 else parts2 ++ [PathPart.key x]),
          ∃ s, q = PathPart.key s := by
      intro parts2 x hp2 q hq
      split at hq
      · exact hp2 q hq
      · rcases List.mem_append.mp hq with hh | hh
        · exact hp2 q hh
        · exact ⟨x, by simpa using hh⟩
    simp only [splitPathAux] at hmem
    rw [if_neg hc.1, if_neg hc.2] at hmem
    by_cases hdot : (c = '.' && !inB) = true
    · rw [if_pos hdot] at hmem
      exact ih [] inB _ (fun c' hc' => h c' (by simp [hc'])) (hext parts _ hp) p hmem
    · rw [if_neg hdot] at hmem
      exact ih (cur ++ [c]) inB parts (fun c' hc' => h c' (by simp [hc'])) hp p hmem

theorem walkAux_cons_some {cur : JsonValue} {p : PathPart} {v : JsonValue}
    (rest : List PathPart) (tr : List String) (h : step cur p = some v) :
    walkAux cur (p :: rest) tr = walkAux v rest (tr ++ [partStr p]) := by
  cases cur with
  | obj fields =>
    simp only [step] at h
    simp [walkAux, h]
  | arr elems =>
    simp only [step] at h
    rcases hp : partIndex p with _ | i <;> simp only [hp] at h
    · exact Option.noConfusion h
    · by_cases hcond : 0 ≤ i ∧ i.toNat < elems.length
      · rw [dif_pos hcond] at h
        simp only [Option.some.injEq] at h
        subst h
        simp only [walkAux, hp]
        rw [dif_pos hcond]
      · rw [dif_neg hcond] at h
        exact Option.noConfusion h
  | null => exact Option.noConfusion h
  | bool b => exact Option.noConfusion h
  | num n => exact Option.noConfusion h
  | str s => exact Option.noConfusion h

theorem walkAux_cons_none {cur : JsonValue} {p : PathPart}
    (rest : List PathPart) (tr : List String) (h : step cur p = none) :
    walkAux cur (p :: rest) tr =
      .fail (failMsg cur p (tr ++ [partStr p])) (tr ++ [partStr p]) := by
  cases cur with
  | obj fields =>
    simp only [step] at h
    simp [walkAux, failMsg, h]
  | arr elems =>
    simp only [step] at h
    rcases hp : partIndex p with _ | i <;> simp only [hp] at h
    · simp [walkAux, failMsg, hp]
    · by_cases hcond : 0 ≤ i ∧ i.toNat < elems.length
      · rw [dif_pos hcond] at h
        exact Option.noConfusion h
      · simp only [walkAux, failMsg, hp]
        rw [dif_neg hcond]
  | null => rfl
  | bool b => rfl
  | num n => rfl
  | str s => rfl

theorem walk_fail_spec :
    ∀ (parts : List PathPart) (data : JsonValue) (tr0 : List String)
      (msg : String) (tr : List String),
      walkAux data parts tr0 = .fail msg tr →
      ∃ k, ∃ hk : k < parts.length,
        tr = tr0 ++ (List.take (k + 1) parts).map partStr ∧
        ∃ v, iterSteps data (List.take k parts) = some v ∧
          step v (parts.get ⟨k, hk⟩) = none := by
  intro parts
  induction parts with
  | nil =>
    intro data tr0 msg tr h
    simp [walkAux] at h
  | cons p ps ih =>
    intro data tr0 msg tr h
    rcases hstep : step data p with _ | v
    · rw [walkAux_cons_none ps tr0 hstep] at h
      obtain ⟨-, rfl⟩ := WalkResult.fail.inj h
      exact ⟨0, by simp, by simp, data, by simp [iterSteps], by simpa using hstep⟩
    · rw [walkAux_cons_some ps tr0 hstep] at h
      obtain ⟨k, hk, htr, w, hiter, hfs⟩ := ih v (tr0 ++ [partStr p]) msg tr h
      refine ⟨k + 1, by simpa using hk, ?_, w, ?_, ?_⟩
      · rw [htr]
        simp [List.take_succ_cons]
      · simp [List.take_succ_cons, iterSteps, hstep, hiter]
      · simpa using hfs

/-- C1 counterexample: on `V = obj [a ↦ obj ["0" ↦ "x"]]` and path
`a[0]` the claim predicts success with `"x"`; the extractor instead
fails with a key-not-found message, and the caller-facing pair is
`(null, failure message)` — the integer accessor is compared as a
Python `int` against string dict keys and never matches. -/
theorem C1_counterexample :
    splitPath "a[0]" = [PathPart.key "a", PathPart.idx 0] ∧
    walkAux (.obj [("a", .obj [("0", .str "x")])]) (splitPath "a[0]") [] =
      .fail "键 '0' 在路径 'a.0' 中不存在" ["a", "0"] ∧
    _parse_json_path (.obj [("a", .obj [("0", .str "x")])]) "a[0]" =
      (JsonValue.null, "键 '0' 在路径 'a.0' 中不存在") :=
  ⟨rfl, rfl, rfl⟩

/-- C1 (amended): whenever the current value at a step is a mapping and
the accessor is an `Index` (integer) accessor, resolution fails at that
step with a key-not-found failure, for every mapping and every integer:
the integer is never reinterpreted as its decimal string key. -/
theorem C1_theorem (fields : List (String × JsonValue)) (i : Int)
    (rest : List PathPart) (tr : List String) :
    walkAux (.obj fields) (.idx i :: rest) tr =
      .fail ("键 '" ++ intRepr i ++ "' 在路径 '" ++
             String.intercalate "." (tr ++ [intRepr i]) ++ "' 中不存在")
        (tr ++ [intRepr i]) := rfl

/-- C2 counterexample: the all-digit dot-segment `0` of path `a.0` is
derived as the string-key accessor `key "0"`, yet applied to the
sequence `[10, 20]` it succeeds as a sequence-index lookup and returns
the element `10` — contradicting the claim that such a segment is never
a numeric index lookup. -/
theorem C2_counterexample :
    splitPath "a.0" = [PathPart.key "a", PathPart.key "0"] ∧
    walkAux (.obj [("a", .arr [.num 10, .num 20])]) (splitPath "a.0") [] =
      .ok (.num 10) ["a", "0"] :=
  ⟨rfl, rfl⟩

/-- C2 (amended): every accessor derived from a bracket-free path is a
string-key accessor (never an `Index`), but the walker converts a
string accessor whose text parses as an integer `n` into a sequence
index when the current value is a sequence, so an all-digit dot-segment
against a sequence IS an index lookup. -/
theorem C2_theorem :
    (∀ path : String,
      (∀ c ∈ path.toList, c ≠ '[' ∧ c ≠ ']') →
      ∀ p ∈ splitPath path, ∃ s, p = PathPart.key s) ∧
    (∀ (s : String) (n : Int) (elems : List JsonValue) (rest : List PathPart)
       (tr : List String),
      pyIntOfString s = some n → 0 ≤ n →
      ∀ hn : n.toNat < elems.length,
        walkAux (.arr elems) (.key s :: rest) tr =
          walkAux (elems.get ⟨n.toNat, hn⟩) rest (tr ++ [s])) := by
  constructor
  · intro path h p hp
    exact splitPathAux_keys path.toList [] false [] h (by simp) p hp
  · intro s n elems rest tr h1 h2 hn
    have hs : step (.arr elems) (.key s) = some (elems.get ⟨n.toNat, hn⟩) := by
      simp only [step, partIndex, h1]
      rw [dif_pos ⟨h2, hn⟩]
    simpa using walkAux_cons_some rest tr hs

/-- C2 witness: instantiates both halves of `C2_theorem` on path `a.0`
and the sequence `[10, 20]`. -/
theorem C2_witness :
    (∀ p ∈ splitPath "a.0", ∃ s, p = PathPart.key s) ∧
    walkAux (.arr [.num 10, .num 20]) [.key "0"] [] =
      walkAux (.num 10) [] ["0"] :=
  ⟨C2_theorem.1 "a.0" (by decide),
   C2_theorem.2 "0" 0 [.num 10, .num 20] [] [] rfl (by decide) (by decide)⟩

/-- C3 counterexample: the bracketed token `""k""` (nested double
quotes) produces the accessor `key "k"`: ALL surrounding quote
characters are stripped, not one layer, so the inner quote characters
are not kept as the claim states. -/
theorem C3_counterexample :
    splitPath "[\"\"k\"\"]" = [PathPart.key "k"] ∧
    PathPart.key "k" ≠ PathPart.key "\"k\"" :=
  ⟨rfl, by decide⟩

/-- C3 (amended): a bracketed token that `int(...)` accepts becomes an
`Index` accessor; any other token becomes a string key with ALL leading
and trailing single/double quote characters removed (any number of
layers, any mixture), so `["name"]`, `[name]`, `['name']` coincide and
nested or repeated surrounding quotes are removed as well. -/
theorem C3_theorem :
    (∀ (t : String) (i : Int), pyIntOfString t = some i → bracketToken t = .idx i) ∧
    (∀ pre core post : List Char,
      (∀ c ∈ pre, isQuoteChar c = true) →
      (∀ c ∈ post, isQuoteChar c = true) →
      (∀ c, core.head? = some c → isQuoteChar c = false) →
      (∀ c, core.getLast? = some c → isQuoteChar c = false) →
      stripQuotes (String.mk (pre ++ core ++ post)) = String.mk core ∧
      (pyIntOfString (String.mk (pre ++ core ++ post)) = none →
        bracketToken (String.mk (pre ++ core ++ post)) = .key (String.mk core))) := by
  constructor
  · intro t i h
    simp [bracketToken, h]
  · intro pre core post h1 h2 h3 h4
    have hstrip : stripQuotes (String.mk (pre ++ core ++ post)) = String.mk core := by
      unfold stripQuotes
      have : (String.mk (pre ++ core ++ post)).toList = pre ++ core ++ post := rfl
      rw [this, dropEnds_of_sandwich isQuoteChar pre core post h1 h2 h3 h4]
    exact ⟨hstrip, fun hint => by simp only [bracketToken, hint, hstrip]⟩

/-- C3 witness: instantiates `C3_theorem` on the integer token `0` and
on the sandwich `"" ++ k ++ ""` (two layers of double quotes). -/
theorem C3_witness :
    bracketToken "0" = PathPart.idx 0 ∧
    stripQuotes (String.mk (['"', '"'] ++ ['k'] ++ ['"', '"'])) = String.mk ['k'] :=
  ⟨C3_theorem.1 "0" 0 rfl,
   (C3_theorem.2 ['"', '"'] ['k'] ['"', '"'] (by decide) (by decide)
      (by intro c h; cases h; decide) (by intro c h; cases h; decide)).1⟩

/-- C5 counterexample: on `{a: {b: 1}}` with path `a.c` the walk fails
with a reason that mentions key `c`, but the trace accumulated at the
failure is `["a", "c"]` — it includes the failing accessor — not
`["a"]` as the claim states. -/
theorem C5_counterexample :
    walkAux (.obj [("a", .obj [("b", .num 1)])]) (splitPath "a.c") [] =
      .fail "键 'c' 在路径 'a.c' 中不存在" ["a", "c"] ∧
    (["a", "c"] : List String) ≠ ["a"] :=
  ⟨rfl, by decide⟩

/-- C5 (amended): `extract({a: {b: 1}}, "a.c")` returns a failure whose
reason mentions key `'c'` (shown by an explicit decomposition of the
message around `'c'`) and whose trace is `["a", "c"]`: the trace
includes the failing accessor as its last label. -/
theorem C5_theorem :
    walkAux (.obj [("a", .obj [("b", .num 1)])]) (splitPath "a.c") [] =
      .fail "键 'c' 在路径 'a.c' 中不存在" ["a", "c"] ∧
    (∃ pre post : String, "键 'c' 在路径 'a.c' 中不存在" = pre ++ "'c'" ++ post) ∧
    (["a", "c"] : List String).getLast? = some "c" :=
  ⟨rfl, ⟨"键 ", " 在路径 'a.c' 中不存在", rfl⟩, rfl⟩

/-- C4 (confirmed): whenever the walk over the accessors of any path
fails on any root value, there is a failing position `k` (0-based) such
that the accumulated trace is exactly the labels of the first `k + 1`
accessors — the `k` successfully consumed ones plus the failing one —
its length is `k + 1`, the first `k` steps succeed, and the step at
position `k` fails; no accessor after the failing one contributes to
the trace. -/
theorem C4_theorem (data : JsonValue) (path : String) (msg : String)
    (tr : List String) (h : walkAux data (splitPath path) [] = .fail msg tr) :
    ∃ k, ∃ hk : k < (splitPath path).length,
      tr = (List.take (k + 1) (splitPath path)).map partStr ∧
      tr.length = k + 1 ∧
      ∃ v, iterSteps data (List.take k (splitPath path)) = some v ∧
        step v ((splitPath path).get ⟨k, hk⟩) = none := by
  obtain ⟨k, hk, htr, v, hiter, hs⟩ := walk_fail_spec (splitPath path) data [] msg tr h
  refine ⟨k, hk, by simpa using htr, ?_, v, hiter, hs⟩
  rw [htr]
  simp only [List.nil_append, List.length_map, List.length_take]
  omega

/-- C4 witness: the failure of `extract({a: {b: 1}}, "a.c")` instantiates
the trace invariant at position `k = 1`. -/
theorem C4_witness :
    ∃ k, ∃ hk : k < (splitPath "a.c").length,
      (["a", "c"] : List String) = (List.take (k + 1) (splitPath "a.c")).map partStr ∧
      (["a", "c"] : List String).length = k + 1 ∧
      ∃ v, iterSteps (.obj [("a", .obj [("b", .num 1)])])
            (List.take k (splitPath "a.c")) = some v ∧
        step v ((splitPath "a.c").get ⟨k, hk⟩) = none :=
  C4_theorem (.obj [("a", .obj [("b", .num 1)])]) "a.c"
    "键 'c' 在路径 'a.c' 中不存在" ["a", "c"] rfl

/-- C7 counterexample: in Raw (`"string"`) mode a boolean is rendered
with Python's `str`, producing `"True"` — not the JSON-style `"true"`
the claim states. -/
theorem C7_counterexample :
    _format_output (.bool true) "string" = "True" ∧ "True" ≠ "true" :=
  ⟨rfl, by decide⟩

/-- C7 (amended): in Raw (`"string"`) mode, composite values render
exactly as in CompactJson (`"json"`) mode; booleans render as Python's
`"True"`/`"False"` (capitalised, not JSON `true`/`false`); integers
render in plain decimal with no decimal point; strings render unquoted
as themselves. -/
theorem C7_theorem :
    (∀ l, _format_output (.arr l) "string" = _format_output (.arr l) "json") ∧
    (∀ fl, _format_output (.obj fl) "string" = _format_output (.obj fl) "json") ∧
    (∀ b, _format_output (.bool b) "string" = if b then "True" else "False") ∧
    (∀ i : Int, _format_output (.num i) "string" = intRepr i ∧
      ∀ c ∈ (intRepr i).toList, c ≠ '.') ∧
    (∀ s, _format_output (.str s) "string" = s) := by
  refine ⟨fun l => rfl, fun fl => rfl, fun b => rfl, fun i => ⟨rfl, ?_⟩, fun s => rfl⟩
  intro c hc
  have hdot : ('.' : Char).toNat = 46 := by decide
  have hc' : c ∈ intReprChars i := hc
  cases i with
  | ofNat n =>
    have hdig := natToChars_all_digit n c hc'
    intro he
    rw [he, hdot] at hdig
    omega
  | negSucc n =>
    simp only [intReprChars] at hc'
    rcases List.mem_cons.mp hc' with h | h
    · intro he
      rw [he] at h
      exact absurd h (by decide)
    · have hdig := natToChars_all_digit (n + 1) c h
      intro he
      rw [he, hdot] at hdig
      omega

/-- C8 (confirmed): at a step where the current value is a sequence and
the accessor carries integer `i`, the walk descends to element `i`
exactly when `0 ≤ i < length` and otherwise fails with a message citing
both the index and the sequence length (so negative indices fail rather
than selecting from the end); instantiated on `{a: [10, 20]}`: `a[0]`
resolves to `10` with trace `["a", "0"]`, while `a[5]` and `a[-1]` fail
citing index `5` (resp. `-1`) and length `2`. -/
theorem C8_theorem :
    (∀ (elems : List JsonValue) (i : Int) (rest : List PathPart) (tr : List String),
      walkAux (.arr elems) (.idx i :: rest) tr =
        if h : 0 ≤ i ∧ i.toNat < elems.length then
          walkAux (elems.get ⟨i.toNat, h.2⟩) rest (tr ++ [intRepr i])
        else
          .fail ("索引 " ++ intRepr i ++ " 超出数组范围 (长度: " ++
                 natRepr elems.length ++ ")") (tr ++ [intRepr i])) ∧
    walkAux (.obj [("a", .arr [.num 10, .num 20])]) (splitPath "a[0]") [] =
      .ok (.num 10) ["a", "0"] ∧
    walkAux (.obj [("a", .arr [.num 10, .num 20])]) (splitPath "a[5]") [] =
      .fail "索引 5 超出数组范围 (长度: 2)" ["a", "5"] ∧
    walkAux (.obj [("a", .arr [.num 10, .num 20])]) (splitPath "a[-1]") [] =
      .fail "索引 -1 超出数组范围 (长度: 2)" ["a", "-1"] :=
  ⟨fun _ _ _ _ => rfl, rfl, rfl, rfl⟩

theorem parse_input_json_branch (input : String) (v : JsonValue) (path fmt dflt : String)
    (hload : json_loads (pyStrip input) = Except.ok v)
    (hpath : (pyStrip path).isEmpty = false) :
    parse_input "json" input path fmt dflt =
      match _parse_json_path v path with
      | (JsonValue.null, info) =>
        if !dflt.isEmpty then (dflt, "使用默认值: " ++ info) else ("", info)
      | (result, info) => (_format_output result fmt, info) := by
  unfold parse_input
  rw [if_neg (by decide : ¬ ("json" : String) = "string")]
  simp only [hload, hpath, Bool.false_eq_true, if_false]

/-- C6 counterexample: with input `null`, the empty path and the
non-empty default `"d"`, extraction — as defined by the extractor's own
root-path rule — resolves to the JSON literal `null`, yet the caller
returns the empty string and never consults the default, refuting the
claim for empty paths. -/
theorem C6_counterexample :
    parse_input "json" "null" "" "string" "d" = ("", "返回完整JSON数据") ∧
    _parse_json_path .null "" = (JsonValue.null, "根路径") ∧
    ("d" : String) ≠ "" :=
  ⟨rfl, rfl, by decide⟩

/-- C6 (amended): for every valid-JSON input and every path that is
non-empty after whitespace stripping, the caller substitutes the
default exactly when the default is non-empty and the walk either fails
or resolves to the JSON literal `null`; when the walk succeeds with a
non-null value (including `""`, `0` and `false`) the formatted value is
returned and the default is never used; a failing or null outcome with
an empty default returns the empty string alongside the diagnostic.
(For blank paths the whole value is returned and the default is never
consulted, even when that value is `null` — see the counterexample.) -/
theorem C6_theorem (input : String) (v : JsonValue) (path fmt dflt : String)
    (hload : json_loads (pyStrip input) = Except.ok v)
    (hpath : (pyStrip path).isEmpty = false) :
    (∀ msg tr, walkAux v (splitPath path) [] = .fail msg tr →
      parse_input "json" input path fmt dflt =
        if dflt.isEmpty then ("", msg) else (dflt, "使用默认值: " ++ msg)) ∧
    (∀ tr, walkAux v (splitPath path) [] = .ok .null tr →
      parse_input "json" input path fmt dflt =
        if dflt.isEmpty then ("", "成功提取路径: " ++ path)
        else (dflt, "使用默认值: " ++ ("成功提取路径: " ++ path))) ∧
    (∀ r tr, walkAux v (splitPath path) [] = .ok r tr → r ≠ .null →
      parse_input "json" input path fmt dflt =
        (_format_output r fmt, "成功提取路径: " ++ path)) := by
  refine ⟨?_, ?_, ?_⟩
  · intro msg tr hw
    have hp : _parse_json_path v path = (JsonValue.null, msg) := by
      unfold _parse_json_path
      rw [if_neg (by simp [hpath]), hw]
    rw [parse_input_json_branch input v path fmt dflt hload hpath, hp]
    by_cases hd : dflt.isEmpty <;> simp [hd]
  · intro tr hw
    have hp : _parse_json_path v path = (JsonValue.null, "成功提取路径: " ++ path) := by
      unfold _parse_json_path
      rw [if_neg (by simp [hpath]), hw]
    rw [parse_input_json_branch input v path fmt dflt hload hpath, hp]
    by_cases hd : dflt.isEmpty <;> simp [hd]
  · intro r tr hw hr
    have hp : _parse_json_path v path = (r, "成功提取路径: " ++ path) := by
      unfold _parse_json_path
      rw [if_neg (by simp [hpath]), hw]
    rw [parse_input_json_branch input v path fmt dflt hload hpath, hp]
    cases r with
    | null => exact absurd rfl hr
    | bool b => rfl
    | num n => rfl
    | str s => rfl
    | arr l => rfl
    | obj l => rfl

/-- C6 witness: on input `{"a": 0}` with path `a` and the non-empty
default `"d"`, the resolved value `0` is formatted as `"0"` — the
default is not used for a successfully resolved falsy value. -/
theorem C6_witness :
    parse_input "json" "\x7b\"a\": 0\x7d" "a" "string" "d" =
      ("0", "成功提取路径: a") :=
  ( C6_theorem "\x7b\"a\": 0\x7d" (JsonValue.obj [("a", JsonValue.num 0)])
      "a" "string" "d" rfl rfl).2.2 (JsonValue.num 0) ["a"] rfl (by simp)

/-- C10 (confirmed): for every input whose (stripped) text the JSON
decoder rejects, the caller returns the decode error message (prefixed
with the parse-error label) together with the invalid-format
diagnostic, for EVERY configured default value — the default is never
substituted for a parse error. -/
theorem C10_theorem (input path fmt dflt e : String)
    (h : json_loads (pyStrip input) = Except.error e) :
    parse_input "json" input path fmt dflt =
      ("JSON解析错误: " ++ e, "JSON格式无效") := by
  unfold parse_input
  rw [if_neg (by decide : ¬ ("json" : String) = "string")]
  simp only [h]

/-- C10 witness: the invalid document `{` yields the decode-error pair
even though the default `"d"` is non-empty. -/
theorem C10_witness :
    parse_input "json" "\x7b" "a" "string" "d" =
      ("JSON解析错误: Expecting value", "JSON格式无效") :=
  C10_theorem "\x7b" "a" "string" "d" "Expecting value" rfl

/-- The input may not continue with a character that a JSON number
could absorb (digit, decimal point, exponent marker). -/
def numBoundary (l : List Char) : Bool :=
  match l with
  | [] => true
  | c :: _ => !(isDigitChar c || c = '.' || c = 'e' || c = 'E')

theorem mk_toList (s : String) : String.mk s.toList = s := by cases s; rfl

theorem parseDigitsAcc_stop (l : List Char) (acc : Nat)
    (h : numBoundary l = true) : parseDigitsAcc l acc = (acc, l) := by
  cases l with
  | nil => rfl
  | cons c t =>
    simp only [numBoundary, Bool.not_eq_true', Bool.or_eq_false_iff] at h
    simp [parseDigitsAcc, h.1.1.1]


theorem digitChar_isDigit {d : Nat} (h : d < 10) : isDigitChar (decDigit d) = true := by
  simp only [isDigitChar, decDigit_toNat d h]
  simp
  omega

theorem parseDigitsAcc_natToChars (n : Nat) :
    ∀ acc rest, parseDigitsAcc (natToChars n ++ rest) acc =
      parseDigitsAcc rest (acc * 10 ^ (natToChars n).length + n) := by
  induction n using Nat.strong_induction_on with
  | _ n ih =>
    intro acc rest
    by_cases h : n < 10
    · rw [natToChars_lt h]
      have hstep : parseDigitsAcc ([decDigit n] ++ rest) acc =
          parseDigitsAcc rest (acc * 10 + n) := by
        have hv : (decDigit n).toNat - 48 = n := by rw [decDigit_toNat n h]; omega
        simp [parseDigitsAcc, digitChar_isDigit h, hv]
      rw [hstep]
      norm_num
    · rw [natToChars_ge (by omega : 10 ≤ n)]
      have hdiv : n / 10 < n := Nat.div_lt_self (by omega) (by norm_num)
      rw [List.append_assoc, ih (n / 10) hdiv acc ([decDigit (n % 10)] ++ rest)]
      have hstep : ∀ A, parseDigitsAcc ([decDigit (n % 10)] ++ rest) A =
          parseDigitsAcc rest (A * 10 + n % 10) := by
        intro A
        have hv : (decDigit (n % 10)).toNat - 48 = n % 10 := by
          rw [decDigit_toNat (n % 10) (by omega)]; omega
        simp [parseDigitsAcc, digitChar_isDigit (by omega : n % 10 < 10), hv]
      rw [hstep]
      rw [List.length_append, List.length_singleton]
      congr 1
      have hmod : n / 10 * 10 + n % 10 = n := by omega
      calc (acc * 10 ^ (natToChars (n / 10)).length + n / 10) * 10 + n % 10
          = acc * (10 ^ (natToChars (n / 10)).length * 10) + (n / 10 * 10 + n % 10) := by ring
        _ = acc * 10 ^ ((natToChars (n / 10)).length + 1) + n := by rw [hmod, pow_succ]

theorem natToChars_zero : natToChars 0 = ['0'] := by
  rw [natToChars_lt (by omega)]
  rfl

theorem parseNumNat_natToChars (n : Nat) (rest : List Char)
    (h : numBoundary rest = true) :
    parseNumNat (natToChars n ++ rest) = some (n, rest) := by
  have hbound : digitFollows rest = false ∧ fracFollows rest = false := by
    cases rest with
    | nil => exact ⟨rfl, rfl⟩
    | cons c t =>
      simp only [numBoundary, Bool.not_eq_true', Bool.or_eq_false_iff] at h
      refine ⟨h.1.1.1, ?_⟩
      simp [fracFollows, h.1.1.2, h.1.2, h.2]
  rcases Nat.eq_zero_or_pos n with rfl | hn
  · rw [natToChars_zero]
    simp [parseNumNat, hbound.1, hbound.2]
  · rcases hsplit : natToChars n with _ | ⟨c, t⟩
    · exact absurd hsplit (natToChars_ne_nil n)
    · have hc : 48 ≤ c.toNat ∧ c.toNat ≤ 57 :=
        natToChars_all_digit n c (by rw [hsplit]; simp)
      have hc0 : c ≠ '0' := by
        intro he
        exact natToChars_head_pos n hn t (by rw [hsplit, he])
      have hcdig : isDigitChar c = true := by simp [isDigitChar]; omega
      rw [List.cons_append]
      have hunfold : parseNumNat (c :: (t ++ rest)) =
          (if fracFollows (parseDigitsAcc (t ++ rest) (c.toNat - 48)).2 then none
           else some (parseDigitsAcc (t ++ rest) (c.toNat - 48))) := by
        simp [parseNumNat, hc0, hcdig]
      rw [hunfold]
      have hacc : parseDigitsAcc (t ++ rest) (c.toNat - 48) =
          parseDigitsAcc ((c :: t) ++ rest) 0 := by
        simp [parseDigitsAcc, hcdig]
      rw [hacc, ← hsplit, parseDigitsAcc_natToChars n 0 rest]
      rw [Nat.zero_mul, Nat.zero_add, parseDigitsAcc_stop rest n h]
      simp [hbound.2]

theorem parseNum_intRepr (i : Int) (rest : List Char)
    (h : numBoundary rest = true) :
    parseNum (intReprChars i ++ rest) = some (i, rest) := by
  cases i with
  | ofNat n =>
    show parseNum (natToChars n ++ rest) = some (Int.ofNat n, rest)
    rcases hsplit : natToChars n with _ | ⟨c, t⟩
    · exact absurd hsplit (natToChars_ne_nil n)
    · have hc : 48 ≤ c.toNat ∧ c.toNat ≤ 57 :=
        natToChars_all_digit n c (by rw [hsplit]; simp)
      have hcm : c ≠ '-' := by
        intro he
        rw [he] at hc
        have h45 : ('-' : Char).toNat = 45 := by decide
        omega
      rw [List.cons_append]
      have hunfold : parseNum (c :: (t ++ rest)) =
          (parseNumNat (c :: (t ++ rest))).map (fun p => ((p.1 : Int), p.2)) := by
        simp [parseNum, hcm]
      rw [hunfold, ← List.cons_append, ← hsplit, parseNumNat_natToChars n rest h]
      rfl
  | negSucc n =>
    show parseNum ('-' :: natToChars (n + 1) ++ rest) = some (Int.negSucc n, rest)
    rw [List.cons_append]
    have hunfold : parseNum ('-' :: (natToChars (n + 1) ++ rest)) =
        (parseNumNat (natToChars (n + 1) ++ rest)).map
          (fun p => (-(p.1 : Int), p.2)) := by
      simp [parseNum]
    rw [hunfold, parseNumNat_natToChars (n + 1) rest h]
    simp [Int.negSucc_eq]

theorem hexVal_hexLowerChar {d : Nat} (h : d < 16) : hexVal (hexLowerChar d) = some d := by
  revert d h
  decide

theorem parseStr_close (l : List Char) : parseStrChars ('"' :: l) = some ([], l) := by
  rw [parseStrChars.eq_def]; simp

theorem parseStr_quote (l : List Char) :
    parseStrChars ('\\' :: '"' :: l) = (parseStrChars l).map (fun p => ('"' :: p.1, p.2)) := by
  rw [parseStrChars.eq_def]; simp

theorem parseStr_backslash (l : List Char) :
    parseStrChars ('\\' :: '\\' :: l) =
      (parseStrChars l).map (fun p => ('\\' :: p.1, p.2)) := by
  rw [parseStrChars.eq_def]; simp

theorem parseStr_n (l : List Char) :
    parseStrChars ('\\' :: 'n' :: l) = (parseStrChars l).map (fun p => ('\n' :: p.1, p.2)) := by
  rw [parseStrChars.eq_def]; simp

theorem parseStr_r (l : List Char) :
    parseStrChars ('\\' :: 'r' :: l) = (parseStrChars l).map (fun p => ('\r' :: p.1, p.2)) := by
  rw [parseStrChars.eq_def]; simp

theorem parseStr_t (l : List Char) :
    parseStrChars ('\\' :: 't' :: l) = (parseStrChars l).map (fun p => ('\t' :: p.1, p.2)) := by
  rw [parseStrChars.eq_def]; simp

theorem parseStr_b (l : List Char) :
    parseStrChars ('\\' :: 'b' :: l) =
      (parseStrChars l).map (fun p => ('\x08' :: p.1, p.2)) := by
  rw [parseStrChars.eq_def]; simp

theorem parseStr_f (l : List Char) :
    parseStrChars ('\\' :: 'f' :: l) =
      (parseStrChars l).map (fun p => ('\x0c' :: p.1, p.2)) := by
  rw [parseStrChars.eq_def]; simp

theorem parseStr_u (h3 h4 : Char) (a b : Nat) (l : List Char)
    (hh3 : hexVal h3 = some a) (hh4 : hexVal h4 = some b) :
    parseStrChars ('\\' :: 'u' :: '0' :: '0' :: h3 :: h4 :: l) =
      (parseStrChars l).map (fun p => (Char.ofNat (a * 16 + b) :: p.1, p.2)) := by
  have h0 : hexVal '0' = some 0 := by decide
  rw [parseStrChars.eq_def]
  simp [h0, hh3, hh4]

theorem parseStr_plain (c : Char) (l : List Char) (h1 : c ≠ '"') (h2 : c ≠ '\\')
    (h3 : 32 ≤ c.toNat) :
    parseStrChars (c :: l) = (parseStrChars l).map (fun p => (c :: p.1, p.2)) := by
  rw [parseStrChars.eq_def]
  simp [h1, h2, show ¬ c.toNat < 32 from by omega]

theorem parseStrChars_escape :
    ∀ cs rest, parseStrChars (escapeList cs ++ '"' :: rest) = some (cs, rest) := by
  intro cs
  induction cs with
  | nil =>
    intro rest
    rw [show escapeList [] = [] from rfl, List.nil_append, parseStr_close]
  | cons c cs' ih =>
    intro rest
    have hesc : escapeList (c :: cs') = escChar c ++ escapeList cs' := rfl
    rw [hesc, List.append_assoc]
    by_cases h1 : c = '"'
    · subst h1
      rw [show escChar '"' = ['\\', '"'] from rfl]
      simp only [List.cons_append, List.nil_append]
      rw [parseStr_quote, ih]
      rfl
    · by_cases h2 : c = '\\'
      · subst h2
        rw [show escChar '\\' = ['\\', '\\'] from rfl]
        simp only [List.cons_append, List.nil_append]
        rw [parseStr_backslash, ih]
        rfl
      · by_cases h3 : c = '\n'
        · subst h3
          rw [show escChar '\n' = ['\\', 'n'] from rfl]
          simp only [List.cons_append, List.nil_append]
          rw [parseStr_n, ih]
          rfl
        · by_cases h4 : c = '\r'
          · subst h4
            rw [show escChar '\r' = ['\\', 'r'] from rfl]
            simp only [List.cons_append, List.nil_append]
            rw [parseStr_r, ih]
            rfl
          · by_cases h5 : c = '\t'
            · subst h5
              rw [show escChar '\t' = ['\\', 't'] from rfl]
              simp only [List.cons_append, List.nil_append]
              rw [parseStr_t, ih]
              rfl
            · by_cases h6 : c = '\x08'
              · subst h6
                rw [show escChar '\x08' = ['\\', 'b'] from rfl]
                simp only [List.cons_append, List.nil_append]
                rw [parseStr_b, ih]
                rfl
              · by_cases h7 : c = '\x0c'
                · subst h7
                  rw [show escChar '\x0c' = ['\\', 'f'] from rfl]
                  simp only [List.cons_append, List.nil_append]
                  rw [parseStr_f, ih]
                  rfl
                · by_cases h8 : c.toNat < 32
                  · have hesc2 : escChar c =
                        ['\\', 'u', '0', '0', hexLowerChar (c.toNat / 16),
                         hexLowerChar (c.toNat % 16)] := by
                      simp only [escChar, if_neg h1, if_neg h2, if_neg h3, if_neg h4,
                        if_neg h5, if_neg h6, if_neg h7, if_pos h8]
                    rw [hesc2]
                    simp only [List.cons_append, List.nil_append]
                    rw [parseStr_u _ _ (c.toNat / 16) (c.toNat % 16) _
                        (hexVal_hexLowerChar (by omega)) (hexVal_hexLowerChar (by omega)),
                      ih]
                    have hc : c.toNat / 16 * 16 + c.toNat % 16 = c.toNat := by omega
                    rw [hc, Char.ofNat_toNat]
                    rfl
                  · have hesc2 : escChar c = [c] := by
                      simp only [escChar, if_neg h1, if_neg h2, if_neg h3, if_neg h4,
                        if_neg h5, if_neg h6, if_neg h7, if_neg h8]
                    rw [hesc2]
                    simp only [List.singleton_append]
                    rw [parseStr_plain c _ h1 h2 (by omega), ih]
                    rfl

theorem skipWs_cons_of {c : Char} (l : List Char) (h : isJsonWs c = false) :
    skipWs (c :: l) = c :: l := by
  simp [skipWs, List.dropWhile, h]

theorem parseValue_space (f : Nat) (l : List Char) :
    parseValue (f + 1) (' ' :: l) = parseValue (f + 1) l := by
  have h : skipWs (' ' :: l) = skipWs l := by simp [skipWs, List.dropWhile, isJsonWs]
  simp only [parseValue, h]

theorem dumpsList_head_spec (v : JsonValue) :
    ∃ c t, dumpsList v = c :: t ∧ isJsonWs c = false ∧ c ≠ ']' := by
  cases v with
  | null => exact ⟨'n', _, rfl, by decide, by decide⟩
  | bool b => cases b with
    | true => exact ⟨'t', _, rfl, by decide, by decide⟩
    | false => exact ⟨'f', _, rfl, by decide, by decide⟩
  | num i =>
    cases i with
    | ofNat n =>
      rcases hsplit : natToChars n with _ | ⟨c, t⟩
      · exact absurd hsplit (natToChars_ne_nil n)
      · have hc : 48 ≤ c.toNat ∧ c.toNat ≤ 57 :=
          natToChars_all_digit n c (by rw [hsplit]; simp)
        refine ⟨c, t, by rw [show dumpsList (.num (.ofNat n)) = natToChars n from rfl, hsplit], ?_, ?_⟩
        · simp only [isJsonWs]
          simp
          omega
        · intro he
          have h93 : (']' : Char).toNat = 93 := by decide
          rw [he, h93] at hc
          omega
    | negSucc n =>
      exact ⟨'-', natToChars (n + 1), rfl, by decide, by decide⟩
  | str s => exact ⟨'"', _, rfl, by decide, by decide⟩
  | arr l =>
    cases l with
    | nil => exact ⟨'[', _, rfl, by decide, by decide⟩
    | cons v vs => exact ⟨'[', _, rfl, by decide, by decide⟩
  | obj l =>
    cases l with
    | nil => exact ⟨'\x7b', _, rfl, by decide, by decide⟩
    | cons kv kvs => exact ⟨'\x7b', _, rfl, by decide, by decide⟩

theorem skipWs_dumps (v : JsonValue) (r : List Char) :
    skipWs (dumpsList v ++ r) = dumpsList v ++ r := by
  obtain ⟨c, t, heq, hws, -⟩ := dumpsList_head_spec v
  rw [heq, List.cons_append, skipWs_cons_of _ hws]

theorem keyMem_append (k : String) (l1 l2 : List (String × JsonValue)) :
    keyMem k (l1 ++ l2) = (keyMem k l1 || keyMem k l2) := by
  induction l1 with
  | nil => simp [keyMem]
  | cons kv rest ih =>
    obtain ⟨k2, v2⟩ := kv
    simp [keyMem, ih, Bool.or_assoc]

theorem insertField_not_mem (k : String) (v : JsonValue) :
    ∀ acc, keyMem k acc = false → insertField acc k v = acc ++ [(k, v)] := by
  intro acc
  induction acc with
  | nil => intro _; rfl
  | cons kv rest ih =>
    obtain ⟨k2, v2⟩ := kv
    intro h
    simp only [keyMem, Bool.or_eq_false_iff] at h
    have hk : k2 ≠ k := fun he => by simp [he] at h
    simp only [insertField, if_neg hk, List.cons_append, List.cons.injEq, true_and]
    exact ih h.2

theorem keyMem_false_forall {k : String} :
    ∀ l, keyMem k l = false → ∀ kv ∈ l, ¬ kv.1 = k := by
  intro l
  induction l with
  | nil => intro _ kv h; simp at h
  | cons kv2 rest ih =>
    obtain ⟨k2, v2⟩ := kv2
    intro h kv hm
    simp only [keyMem, Bool.or_eq_false_iff] at h
    rcases List.mem_cons.mp hm with rfl | hm2
    · intro he
      have he2 : k2 = k := he
      rw [he2] at h
      simp at h
    · exact ih h.2 kv hm2

theorem foldl_insertField (fields : List (String × JsonValue)) :
    ∀ acc, wfObj fields = true →
      (∀ kv ∈ fields, keyMem kv.1 acc = false) →
      List.foldl (fun acc kv => insertField acc kv.1 kv.2) acc fields = acc ++ fields := by
  induction fields with
  | nil => intro acc _ _; simp
  | cons kv rest ih =>
    obtain ⟨k, v⟩ := kv
    intro acc hwf hfresh
    simp only [wfObj, Bool.and_eq_true, Bool.not_eq_true'] at hwf
    simp only [List.foldl_cons]
    rw [insertField_not_mem k v acc (hfresh (k, v) (by simp))]
    rw [ih (acc ++ [(k, v)]) hwf.2 ?fresh]
    · simp
    case fresh =>
      intro kv2 hkv2
      rw [keyMem_append]
      have h1 : keyMem kv2.1 acc = false := hfresh kv2 (by simp [hkv2])
      have hne : ¬ kv2.1 = k := keyMem_false_forall rest hwf.1.1 kv2 hkv2
      have h2 : keyMem kv2.1 [(k, v)] = false := by simp [keyMem, hne]
      simp [h1, h2]

theorem buildObj_wf (fields : List (String × JsonValue)) (h : wfObj fields = true) :
    buildObj fields = fields := by
  have := foldl_insertField fields [] h (fun kv _ => rfl)
  simpa [buildObj] using this

theorem lookupField_wf (s : String) :
    ∀ fields, wfObj fields = true → ∀ v, lookupField fields s = some v →
      wfVal v = true := by
  intro fields
  induction fields with
  | nil => intro _ v h; exact Option.noConfusion h
  | cons kv rest ih =>
    obtain ⟨k, w⟩ := kv
    intro hwf v h
    simp only [wfObj, Bool.and_eq_true] at hwf
    simp only [lookupField] at h
    by_cases hk : k = s
    · rw [if_pos hk] at h
      obtain rfl := Option.some.inj h
      exact hwf.1.2
    · rw [if_neg hk] at h
      exact ih hwf.2 v h

theorem get_wf : ∀ (l : List JsonValue), wfArr l = true →
    ∀ i : Fin l.length, wfVal (l.get i) = true := by
  intro l
  induction l with
  | nil => intro _ i; exact absurd i.2 (by simp)
  | cons v vs ih =>
    intro hwf i
    simp only [wfArr, Bool.and_eq_true] at hwf
    match i with
    | ⟨0, _⟩ => exact hwf.1
    | ⟨j + 1, hj⟩ => exact ih hwf.2 ⟨j, by simpa using hj⟩

theorem step_wf {cur : JsonValue} {p : PathPart} {v : JsonValue}
    (hwf : wfVal cur = true) (h : step cur p = some v) : wfVal v = true := by
  cases cur with
  | obj fields =>
    simp only [step] at h
    cases p with
    | key s =>
      simp only [partKeyLookup] at h
      exact lookupField_wf s fields hwf v h
    | idx i => exact Option.noConfusion h
  | arr elems =>
    simp only [step] at h
    rcases hp : partIndex p with _ | i <;> simp only [hp] at h
    · exact Option.noConfusion h
    · by_cases hcond : 0 ≤ i ∧ i.toNat < elems.length
      · rw [dif_pos hcond] at h
        obtain rfl := Option.some.inj h
        exact get_wf elems hwf ⟨i.toNat, hcond.2⟩
      · rw [dif_neg hcond] at h
        exact Option.noConfusion h
  | null => exact Option.noConfusion h
  | bool b => exact Option.noConfusion h
  | num n => exact Option.noConfusion h
  | str s => exact Option.noConfusion h

theorem walk_ok_wf :
    ∀ (parts : List PathPart) (v : JsonValue) (tr : List String) (R : JsonValue)
      (trR : List String), wfVal v = true → walkAux v parts tr = .ok R trR →
      wfVal R = true := by
  intro parts
  induction parts with
  | nil =>
    intro v tr R trR hwf h
    simp only [walkAux] at h
    obtain ⟨rfl, -⟩ := WalkResult.ok.inj h
    exact hwf
  | cons p ps ih =>
    intro v tr R trR hwf h
    rcases hstep : step v p with _ | w
    · rw [walkAux_cons_none ps tr hstep] at h
      exact WalkResult.noConfusion h
    · rw [walkAux_cons_some ps tr hstep] at h
      exact ih w (tr ++ [partStr p]) R trR (step_wf hwf hstep) h

theorem intRepr_head (i : Int) :
    ∃ c t, intReprChars i = c :: t ∧ (c = '-' ∨ (48 ≤ c.toNat ∧ c.toNat ≤ 57)) := by
  cases i with
  | ofNat n =>
    rcases hsplit : natToChars n with _ | ⟨c, t⟩
    · exact absurd hsplit (natToChars_ne_nil n)
    · exact ⟨c, t, hsplit, Or.inr (natToChars_all_digit n c (by rw [hsplit]; simp))⟩
  | negSucc n => exact ⟨'-', natToChars (n + 1), rfl, Or.inl rfl⟩

theorem numBoundary_arrTail (vs : List JsonValue) (r : List Char) :
    numBoundary (dumpsArrTail vs ++ ']' :: r) = true := by
  cases vs with
  | nil => rfl
  | cons v vs' => rfl

theorem numBoundary_objTail (kvs : List (String × JsonValue)) (r : List Char) :
    numBoundary (dumpsObjTail kvs ++ '\x7d' :: r) = true := by
  cases kvs with
  | nil => rfl
  | cons kv kvs' => rfl

theorem parseValue_str (f : Nat) (Y : List Char) :
    parseValue (f + 1) ('"' :: Y) =
      (parseStrChars Y).map (fun p => (.str (String.mk p.1), p.2)) := rfl

theorem parseValue_num (f : Nat) (c : Char) (t : List Char) (i : Int) (rest : List Char)
    (hclass : c = '-' ∨ (48 ≤ c.toNat ∧ c.toNat ≤ 57))
    (hnum : parseNum (c :: t) = some (i, rest)) :
    parseValue (f + 1) (c :: t) = some (.num i, rest) := by
  have hfacts : c ≠ 'n' ∧ c ≠ 't' ∧ c ≠ 'f' ∧ c ≠ '"' ∧ c ≠ '[' ∧ c ≠ '\x7b' ∧
      (c = '-' || isDigitChar c) = true ∧ isJsonWs c = false := by
    rcases hclass with rfl | hd
    · refine ⟨?_, ?_, ?_, ?_, ?_, ?_, by simp, ?_⟩ <;> decide
    · have hne : ∀ x : Char, x.toNat < 48 ∨ 57 < x.toNat → c ≠ x := by
        intro x hx he
        rw [he] at hd
        omega
      refine ⟨hne 'n' (by decide), hne 't' (by decide), hne 'f' (by decide),
        hne '"' (by decide), hne '[' (by decide), hne '\x7b' (by decide), ?_, ?_⟩
      · simp only [isDigitChar, Bool.or_eq_true]
        right
        simp
        omega
      · simp only [isJsonWs]
        simp
        omega
  obtain ⟨h1, h2, h3, h4, h5, h6, h7, h8⟩ := hfacts
  simp only [parseValue, @skipWs_cons_of c t h8]
  rw [if_neg h1, if_neg h2, if_neg h3, if_neg h4, if_neg h5, if_neg h6, if_pos h7, hnum]
  rfl

theorem parseValue_open_bracket (f : Nat) (X : List Char) (v : JsonValue) (r : List Char)
    (vs : List JsonValue) (r2 : List Char)
    (hX : skipWs X = X) (hhead : X.head? ≠ some ']')
    (hv : parseValue f X = some (v, r))
    (hvs : parseArrTail f r = some (vs, r2)) :
    parseValue (f + 1) ('[' :: X) = some (.arr (v :: vs), r2) := by
  simp only [parseValue, @skipWs_cons_of '[' X (by decide), hX, if_true]
  rw [if_neg hhead]
  simp only [hv, hvs]
  rw [if_neg (by decide : ¬ ('[' : Char) = 'n'), if_neg (by decide : ¬ ('[' : Char) = 't'),
    if_neg (by decide : ¬ ('[' : Char) = 'f'), if_neg (by decide : ¬ ('[' : Char) = '"')]

theorem parseValue_open_brace (f : Nat) (Y : List Char) (kcs : List Char) (r : List Char)
    (w : JsonValue) (r3 : List Char) (kvs : List (String × JsonValue)) (r4 : List Char)
    (hstr : parseStrChars Y = some (kcs, r))
    (hcolon : skipWs r = r) (hc : r.head? = some ':')
    (hval : parseValue f r.tail = some (w, r3))
    (htail : parseObjTail f r3 = some (kvs, r4)) :
    parseValue (f + 1) ('\x7b' :: '"' :: Y) =
      some (.obj (buildObj ((String.mk kcs, w) :: kvs)), r4) := by
  simp only [parseValue, @skipWs_cons_of '\x7b' ('"' :: Y) (by decide),
    @skipWs_cons_of '"' Y (by decide), if_true, List.head?_cons, List.tail_cons]
  simp only [hstr, hcolon, hc, hval, htail]
  rw [if_neg (by decide : ¬ ('\x7b' : Char) = 'n'), if_neg (by decide : ¬ ('\x7b' : Char) = 't'),
    if_neg (by decide : ¬ ('\x7b' : Char) = 'f'), if_neg (by decide : ¬ ('\x7b' : Char) = '"'),
    if_neg (by decide : ¬ ('\x7b' : Char) = '['),
    if_neg (by decide : ¬ (some '"' = some '\x7d')), if_pos trivial]

theorem parseArrTail_comma (f : Nat) (Y : List Char) (v : JsonValue) (r : List Char)
    (vs : List JsonValue) (r2 : List Char)
    (hv : parseValue f Y = some (v, r))
    (hvs : parseArrTail f r = some (vs, r2)) :
    parseArrTail (f + 1) (',' :: Y) = some (v :: vs, r2) := by
  simp only [parseArrTail, @skipWs_cons_of ',' Y (by decide), if_true,
    List.head?_cons, List.tail_cons]
  simp only [hv, hvs]
  rw [if_neg (by decide : ¬ (some ',' = some ']'))]

theorem parseObjTail_comma (f : Nat) (Y : List Char) (kcs : List Char) (r : List Char)
    (w : JsonValue) (r3 : List Char) (kvs : List (String × JsonValue)) (r4 : List Char)
    (hstr : parseStrChars Y = some (kcs, r))
    (hcolon : skipWs r = r) (hc : r.head? = some ':')
    (hval : parseValue f r.tail = some (w, r3))
    (htail : parseObjTail f r3 = some (kvs, r4)) :
    parseObjTail (f + 1) (',' :: ' ' :: '"' :: Y) = some ((String.mk kcs, w) :: kvs, r4) := by
  have hsp : skipWs (' ' :: '"' :: Y) = '"' :: Y := by
    simp [skipWs, List.dropWhile, isJsonWs]
  simp only [parseObjTail, @skipWs_cons_of ',' (' ' :: '"' :: Y) (by decide), if_true,
    List.head?_cons, List.tail_cons, hsp]
  simp only [hstr, hcolon, hc, hval, htail]
  rw [if_neg (by decide : ¬ (some ',' = some '\x7d')), if_pos trivial]

theorem wfVal_arr (l : List JsonValue) : wfVal (.arr l) = wfArr l := rfl

theorem wfVal_obj (l : List (String × JsonValue)) : wfVal (.obj l) = wfObj l := rfl

theorem wfArr_cons (v : JsonValue) (vs : List JsonValue) :
    wfArr (v :: vs) = (wfVal v && wfArr vs) := rfl

theorem dumpsHead_ne_rb (v : JsonValue) (r : List Char) :
    (dumpsList v ++ r).head? ≠ some ']' := by
  obtain ⟨c, t, heq, -, hne⟩ := dumpsList_head_spec v
  rw [heq, List.cons_append, List.head?_cons]
  simp [hne]

mutual

theorem parse_dumps_val (v : JsonValue) : ∀ (f : Nat) (rest : List Char),
    (dumpsList v).length < f → numBoundary rest = true → wfVal v = true →
    parseValue f (dumpsList v ++ rest) = some (v, rest) := by
  intro f rest hf hb hwf
  obtain ⟨f2, rfl⟩ : ∃ f2, f = f2 + 1 := ⟨f - 1, by omega⟩
  cases v with
  | null => rfl
  | bool b => cases b <;> rfl
  | num i =>
    obtain ⟨c, t, heq, hclass⟩ := intRepr_head i
    have h1 : dumpsList (.num i) ++ rest = c :: (t ++ rest) := by
      show intReprChars i ++ rest = _
      rw [heq, List.cons_append]
    rw [h1]
    apply parseValue_num f2 c (t ++ rest) i rest hclass
    rw [← List.cons_append, ← heq]
    exact parseNum_intRepr i rest hb
  | str s =>
    have h1 : dumpsList (.str s) ++ rest = '"' :: (escapeList s.toList ++ ('"' :: rest)) := by
      show ('"' :: (escapeList s.toList ++ ['"'])) ++ rest = _
      simp
    rw [h1, parseValue_str, parseStrChars_escape]
    simp [mk_toList]
  | arr l =>
    cases l with
    | nil => rfl
    | cons v vs =>
      have hlen : (dumpsList (.arr (v :: vs))).length =
          1 + ((dumpsList v).length + ((dumpsArrTail vs).length + 1)) := by
        rw [show dumpsList (.arr (v :: vs)) =
          '[' :: (dumpsList v ++ dumpsArrTail vs ++ [']']) from rfl]
        simp [List.length_append]
        omega
      rw [wfVal_arr, wfArr_cons, Bool.and_eq_true] at hwf
      have h1 : dumpsList (.arr (v :: vs)) ++ rest =
          '[' :: (dumpsList v ++ (dumpsArrTail vs ++ (']' :: rest))) := by
        show ('[' :: (dumpsList v ++ dumpsArrTail vs ++ [']'])) ++ rest = _
        simp
      rw [h1]
      exact parseValue_open_bracket f2 _ v (dumpsArrTail vs ++ ']' :: rest) vs rest
        (skipWs_dumps v _) (dumpsHead_ne_rb v _)
        (parse_dumps_val v f2 _ (by omega) (numBoundary_arrTail vs rest) hwf.1)
        (parse_dumps_arr vs f2 rest (by omega) hwf.2)
  | obj l =>
    cases l with
    | nil => rfl
    | cons kv kvs =>
      obtain ⟨k, w⟩ := kv
      have hfield : (dumpsField (k, w)).length =
          (escapeList k.toList).length + ((dumpsList w).length + 4) := by
        rw [show dumpsField (k, w) =
          '"' :: (escapeList k.toList ++ ('"' :: ':' :: ' ' :: dumpsList w)) from rfl]
        simp [List.length_append]
        omega
      have hlen : (dumpsList (.obj ((k, w) :: kvs))).length =
          1 + ((dumpsField (k, w)).length + ((dumpsObjTail kvs).length + 1)) := by
        rw [show dumpsList (.obj ((k, w) :: kvs)) =
          '\x7b' :: (dumpsField (k, w) ++ dumpsObjTail kvs ++ ['\x7d']) from rfl]
        simp [List.length_append]
        omega
      rw [wfVal_obj] at hwf
      have hwf2 := hwf
      simp only [wfObj, Bool.and_eq_true] at hwf2
      obtain ⟨f3, rfl⟩ : ∃ f3, f2 = f3 + 1 := ⟨f2 - 1, by omega⟩
      have h1 : dumpsList (.obj ((k, w) :: kvs)) ++ rest =
          '\x7b' :: '"' :: (escapeList k.toList ++
            ('"' :: (':' :: ' ' :: (dumpsList w ++
              (dumpsObjTail kvs ++ ('\x7d' :: rest)))))) := by
        show ('\x7b' :: (dumpsField (k, w) ++ dumpsObjTail kvs ++ ['\x7d'])) ++ rest = _
        rw [show dumpsField (k, w) =
          '"' :: (escapeList k.toList ++ ('"' :: ':' :: ' ' :: dumpsList w)) from rfl]
        simp
      rw [h1]
      have hval : parseValue (f3 + 1)
          ((':' :: ' ' :: (dumpsList w ++ (dumpsObjTail kvs ++ ('\x7d' :: rest)))).tail) =
          some (w, dumpsObjTail kvs ++ ('\x7d' :: rest)) := by
        rw [List.tail_cons, parseValue_space]
        exact parse_dumps_val w (f3 + 1) _ (by omega) (numBoundary_objTail kvs rest)
          hwf2.1.2
      have happ := parseValue_open_brace (f3 + 1)
        (escapeList k.toList ++
          ('"' :: (':' :: ' ' :: (dumpsList w ++ (dumpsObjTail kvs ++ ('\x7d' :: rest))))))
        k.toList (':' :: ' ' :: (dumpsList w ++ (dumpsObjTail kvs ++ ('\x7d' :: rest))))
        w (dumpsObjTail kvs ++ ('\x7d' :: rest)) kvs rest
        (parseStrChars_escape k.toList _)
        (@skipWs_cons_of ':' _ (by decide)) rfl hval
        (parse_dumps_obj kvs (f3 + 1) rest (by omega) hwf2.2)
      rw [happ, mk_toList, buildObj_wf ((k, w) :: kvs) hwf]

theorem parse_dumps_arr (vs : List JsonValue) : ∀ (f : Nat) (rest : List Char),
    (dumpsArrTail vs).length < f → wfArr vs = true →
    parseArrTail f (dumpsArrTail vs ++ ']' :: rest) = some (vs, rest) := by
  intro f rest hf hwf
  obtain ⟨f2, rfl⟩ : ∃ f2, f = f2 + 1 := ⟨f - 1, by omega⟩
  cases vs with
  | nil => rfl
  | cons v vs2 =>
    have hlen : (dumpsArrTail (v :: vs2)).length =
        2 + ((dumpsList v).length + (dumpsArrTail vs2).length) := by
      rw [show dumpsArrTail (v :: vs2) =
        ',' :: ' ' :: (dumpsList v ++ dumpsArrTail vs2) from rfl]
      simp [List.length_append]
      omega
    rw [wfArr_cons, Bool.and_eq_true] at hwf
    obtain ⟨f3, rfl⟩ : ∃ f3, f2 = f3 + 1 := ⟨f2 - 1, by omega⟩
    have h1 : dumpsArrTail (v :: vs2) ++ ']' :: rest =
        ',' :: (' ' :: (dumpsList v ++ (dumpsArrTail vs2 ++ (']' :: rest)))) := by
      show (',' :: ' ' :: (dumpsList v ++ dumpsArrTail vs2)) ++ ']' :: rest = _
      simp
    rw [h1]
    exact parseArrTail_comma (f3 + 1) _ v (dumpsArrTail vs2 ++ ']' :: rest) vs2 rest
      (by
        rw [parseValue_space]
        exact parse_dumps_val v (f3 + 1) _ (by omega) (numBoundary_arrTail vs2 rest) hwf.1)
      (parse_dumps_arr vs2 (f3 + 1) rest (by omega) hwf.2)

theorem parse_dumps_obj (kvs : List (String × JsonValue)) : ∀ (f : Nat) (rest : List Char),
    (dumpsObjTail kvs).length < f → wfObj kvs = true →
    parseObjTail f (dumpsObjTail kvs ++ '\x7d' :: rest) = some (kvs, rest) := by
  intro f rest hf hwf
  obtain ⟨f2, rfl⟩ : ∃ f2, f = f2 + 1 := ⟨f - 1, by omega⟩
  cases kvs with
  | nil => rfl
  | cons kv kvs2 =>
    obtain ⟨k, w⟩ := kv
    have hfield : (dumpsField (k, w)).length =
        (escapeList k.toList).length + ((dumpsList w).length + 4) := by
      rw [show dumpsField (k, w) =
        '"' :: (escapeList k.toList ++ ('"' :: ':' :: ' ' :: dumpsList w)) from rfl]
      simp [List.length_append]
      omega
    have hlen : (dumpsObjTail ((k, w) :: kvs2)).length =
        2 + ((dumpsField (k, w)).length + (dumpsObjTail kvs2).length) := by
      rw [show dumpsObjTail ((k, w) :: kvs2) =
        ',' :: ' ' :: (dumpsField (k, w) ++ dumpsObjTail kvs2) from rfl]
      simp [List.length_append]
      omega
    have hwf2 := hwf
    simp only [wfObj, Bool.and_eq_true] at hwf2
    obtain ⟨f3, rfl⟩ : ∃ f3, f2 = f3 + 1 := ⟨f2 - 1, by omega⟩
    have h1 : dumpsObjTail ((k, w) :: kvs2) ++ '\x7d' :: rest =
        ',' :: ' ' :: '"' :: (escapeList k.toList ++
          ('"' :: (':' :: ' ' :: (dumpsList w ++
            (dumpsObjTail kvs2 ++ ('\x7d' :: rest)))))) := by
      show (',' :: ' ' :: (dumpsField (k, w) ++ dumpsObjTail kvs2)) ++ '\x7d' :: rest = _
      rw [show dumpsField (k, w) =
        '"' :: (escapeList k.toList ++ ('"' :: ':' :: ' ' :: dumpsList w)) from rfl]
      simp
    rw [h1]
    have hval : parseValue (f3 + 1)
        ((':' :: ' ' :: (dumpsList w ++ (dumpsObjTail kvs2 ++ ('\x7d' :: rest)))).tail) =
        some (w, dumpsObjTail kvs2 ++ ('\x7d' :: rest)) := by
      rw [List.tail_cons, parseValue_space]
      exact parse_dumps_val w (f3 + 1) _ (by omega) (numBoundary_objTail kvs2 rest)
        hwf2.1.2
    exact parseObjTail_comma (f3 + 1) _ k.toList
      (':' :: ' ' :: (dumpsList w ++ (dumpsObjTail kvs2 ++ ('\x7d' :: rest))))
      w (dumpsObjTail kvs2 ++ ('\x7d' :: rest)) kvs2 rest
      (parseStrChars_escape k.toList _)
      (@skipWs_cons_of ':' _ (by decide)) rfl hval
      (parse_dumps_obj kvs2 (f3 + 1) rest (by omega) hwf2.2)

end

theorem json_loads_dumps (v : JsonValue) (hwf : wfVal v = true) :
    json_loads (dumps v) = Except.ok v := by
  have htop : parseTop (dumpsList v) = some v := by
    unfold parseTop
    have h2 : parseValue ((dumpsList v).length + 1) (dumpsList v ++ []) = some (v, []) :=
      parse_dumps_val v ((dumpsList v).length + 1) [] (by omega) rfl hwf
    rw [List.append_nil] at h2
    rw [h2]
    rfl
  unfold json_loads
  rw [show (dumps v).toList = dumpsList v from rfl, htop]

theorem format_json_eq_dumps (v : JsonValue) (h : v ≠ .null) :
    _format_output v "json" = dumps v := by
  cases v with
  | null => exact absurd rfl h
  | bool b => rfl
  | num n => rfl
  | str s => rfl
  | arr l => rfl
  | obj l => rfl

/-- C9 counterexample: resolution of `a` on `{a: null}` succeeds with
the result `null`, but CompactJson serialization of `null` produces the
empty string (the formatter returns `""` for `None`), and re-parsing
the empty string is a decode error, not `null` — the round-trip law
fails for null results. -/
theorem C9_counterexample :
    walkAux (.obj [("a", .null)]) (splitPath "a") [] = .ok .null ["a"] ∧
    _format_output .null "json" = "" ∧
    json_loads "" = Except.error "Expecting value" :=
  ⟨rfl, rfl, rfl⟩

/-- C9 (amended): for every root value `V` whose mappings have
duplicate-free keys (the invariant Python dicts guarantee for every
`json.loads`-produced value) and every path on which resolution
succeeds with a non-null result `R`, serializing `R` in CompactJson
mode and re-parsing the produced text yields exactly `R`.  (For `R =
null` the serializer emits the empty string, which does not re-parse —
see the counterexample.) -/
theorem C9_theorem (V : JsonValue) (P : String) (R : JsonValue) (tr : List String)
    (hwf : wfVal V = true) (hok : walkAux V (splitPath P) [] = .ok R tr)
    (hR : R ≠ .null) :
    json_loads (_format_output R "json") = Except.ok R := by
  rw [format_json_eq_dumps R hR]
  exact json_loads_dumps R (walk_ok_wf (splitPath P) V [] R tr hwf hok)

/-- C9 witness: on `{"a": [1, "x", null]}` with path `a`, resolution
succeeds with the composite `[1, "x", null]`, and the CompactJson
rendering re-parses to the same value. -/
theorem C9_witness :
    json_loads (_format_output (.arr [.num 1, .str "x", .null]) "json") =
      Except.ok (.arr [.num 1, .str "x", .null]) :=
  C9_theorem (.obj [("a", .arr [.num 1, .str "x", .null])]) "a"
    (.arr [.num 1, .str "x", .null]) ["a"] rfl rfl (by simp)

/-- C7 witness: instantiates the number clause of `C7_theorem` at `-12`:
Raw mode renders it as `"-12"` and no decimal point occurs in it. -/
theorem C7_witness :
    _format_output (JsonValue.num (-12)) "string" = "-12" ∧
    ¬ ('.' ∈ (intRepr (-12)).toList) :=
  ⟨((C7_theorem.2.2.2.1 (-12)).1).trans (by decide),
   fun h => (C7_theorem.2.2.2.1 (-12)).2 '.' h rfl⟩
